import Mathlib

/-!
Verification development for the PathRedux library.

The model is a shallow embedding of the final revision of the library
(file src/Path.ts): JavaScript strings are modelled as lists of
characters, JavaScript arrays as Lean lists, thrown exceptions as the
Except monad, and the external filesystem status query as an oracle
function passed in explicitly.  Each separator of a separator set is a
single character, matching the data model of the library (the scan
compares single characters from the input against the separator
entries).
-/

set_option autoImplicit false

namespace PathRedux

/-- JavaScript Array.prototype.indexOf: index of the first occurrence of
an element, or -1 when absent. -/
def jsIndexOf {α : Type} [DecidableEq α] : List α → α → Int
  | [], _ => -1
  | x :: xs, e =>
    if x = e then 0
    else if jsIndexOf xs e ≥ 0 then jsIndexOf xs e + 1 else -1

/-- JavaScript Array.prototype.lastIndexOf: index of the last occurrence
of an element, or -1 when absent. -/
def jsLastIndexOf {α : Type} [DecidableEq α] : List α → α → Int
  | [], _ => -1
  | x :: xs, e =>
    if jsLastIndexOf xs e ≥ 0 then jsLastIndexOf xs e + 1
    else if x = e then 0 else -1

/-- The loop body of Path.explodePath: scan the remaining characters,
carrying the current fragment buffer.  A non-separator character is
appended to the buffer; a separator flushes a non-empty buffer and is
otherwise skipped; at the end of the scan the buffer is emitted
unconditionally, even when empty. -/
def explodeGo (separators : List Char) : List Char → List Char → List (List Char)
  | currentElement, [] => [currentElement]
  | currentElement, c :: rest =>
    if jsIndexOf separators c = -1 then
      explodeGo separators (currentElement ++ [c]) rest
    else if currentElement = [] then
      explodeGo separators [] rest
    else
      currentElement :: explodeGo separators [] rest

/-- Path.explodePath: explode a path string into fragments. -/
def explodePath (separators : List Char) (pathString : List Char) : List (List Char) :=
  explodeGo separators [] pathString

/-- JavaScript Array.prototype.join with a string separator. -/
def joinList (sep : List Char) : List (List Char) → List Char
  | [] => []
  | [x] => x
  | x :: xs => x ++ sep ++ joinList sep xs

/-- The join separator actually used when the preferred entry of the
separator set is taken: the first entry, as a one-character string.  A
missing entry (empty separator set) makes the JavaScript join fall back
to its default separator, the comma. -/
def headSep (separators : List Char) : List Char :=
  match separators with
  | [] => [',']
  | c :: _ => [c]

/-- The Path class: an ordered fragment sequence, a separator set and
the leading-root flag (source-named trailingSlash). -/
structure Path where
  pathElements : List (List Char)
  separators : List Char
  trailingSlash : Bool
deriving DecidableEq, Repr

/-- The Path constructor.  The separator-set argument is already
resolved (the source defaults it to the OS-resolved set).  A missing or
empty path string is falsy in JavaScript, so both leave the element
list empty and the flag false; otherwise the flag records whether the
first character is a forward slash and the text is exploded. -/
def Path.construct (path : Option (List Char)) (separators : List Char) : Path :=
  match path with
  | some p =>
    if p = [] then
      { pathElements := [], separators := separators, trailingSlash := false }
    else
      { pathElements := explodePath separators p
        separators := separators
        trailingSlash := decide (p.head? = some '/') }
  | none => { pathElements := [], separators := separators, trailingSlash := false }

/-- Path.toString: join the elements with the override separator if one
is given (an empty override string is falsy in JavaScript and falls
back to the preferred separator), wrap with the given text on each
side, and prepend one forward slash when the leading-root flag is
set. -/
def Path.toString (p : Path) (pre suf : List Char) (separator : Option (List Char)) : List Char :=
  let sep : List Char :=
    match separator with
    | some s => if s = [] then headSep p.separators else s
    | none => headSep p.separators
  let path := joinList sep p.pathElements
  let path := pre ++ (path ++ suf)
  if p.trailingSlash then '/' :: path else path

/-- Path.push: explode the fragment with this instance's separator set
and append every resulting sub-fragment, in order, to the elements. -/
def Path.push (p : Path) (e : List Char) : Path :=
  { p with pathElements := p.pathElements ++ explodePath p.separators e }

/-- Path.del: drop the last element if any (Array.prototype.pop). -/
def Path.del (p : Path) : Path :=
  { p with pathElements := p.pathElements.dropLast }

/-- Path.diff: the elements of x whose value has no occurrence in the
elements of y, in x's order. -/
def Path.diff (x y : Path) : List (List Char) :=
  x.pathElements.filter (fun e => decide (jsIndexOf y.pathElements e = -1))

/-- The ext getter.  The source reads pathElements[pathElements.length - 1];
on an empty element list that access yields undefined and the subsequent
split call on it throws a TypeError, which the outer none models.  The
inner Option is the declared string-or-null result: none is the
JavaScript null for a missing extension, some is the substring starting
at the last dot. -/
def Path.ext (p : Path) : Option (Option (List Char)) :=
  match p.pathElements.getLast? with
  | none => none
  | some lastElem =>
    let dotIndex := jsLastIndexOf lastElem '.'
    if dotIndex ≠ 0 ∧ dotIndex ≠ -1 then
      some (some (lastElem.drop dotIndex.toNat))
    else
      some none

/-- The failure kinds a status query can raise.  The probe methods only
discriminate the permission-denied kind (the instanceof test in the
source); everything else is an anonymous other failure, of which a
missing path is the common case. -/
inductive FsError where
  | permissionDenied
  | notFound
  | otherFailure
deriving DecidableEq, Repr

/-- The instanceof Deno.errors.PermissionDenied test of the catch
blocks. -/
def isPermissionDenied : FsError → Bool
  | .permissionDenied => true
  | _ => false

/-- The fields of a successful status query that the probes read. -/
structure StatInfo where
  isFile : Bool
  isDirectory : Bool
  isSymlink : Bool
deriving DecidableEq, Repr

/-- The external Deno.statSync call, modelled as an oracle from the
serialized path text to a result or a raised failure. -/
def StatFn : Type := List Char → Except FsError StatInfo

/-- The exists getter (named existsProbe because exists is reserved
notation in Lean): stat the serialized form; success is true, a
permission-denied failure is re-raised, any other failure is false. -/
def Path.existsProbe (p : Path) (statSync : StatFn) : Except FsError Bool :=
  match statSync (p.toString [] [] none) with
  | .ok _ => .ok true
  | .error e => if isPermissionDenied e then .error e else .ok false

/-- The isFile getter: the isFile field of a successful stat; a
permission-denied failure is re-raised, any other failure is false. -/
def Path.isFile (p : Path) (statSync : StatFn) : Except FsError Bool :=
  match statSync (p.toString [] [] none) with
  | .ok r => .ok r.isFile
  | .error e => if isPermissionDenied e then .error e else .ok false

/-- The isDir getter. -/
def Path.isDir (p : Path) (statSync : StatFn) : Except FsError Bool :=
  match statSync (p.toString [] [] none) with
  | .ok r => .ok r.isDirectory
  | .error e => if isPermissionDenied e then .error e else .ok false

/-- The isSymlink getter. -/
def Path.isSymlink (p : Path) (statSync : StatFn) : Except FsError Bool :=
  match statSync (p.toString [] [] none) with
  | .ok r => .ok r.isSymlink
  | .error e => if isPermissionDenied e then .error e else .ok false

/-- The findLastValidNode loop in the default branch: while the copy
does not exist, drop its last element.  Fuel bounds the number of
iterations; exhausting it (result none) models the loop still running,
so two loops equal at every fuel have identical behaviour, divergence
included.  A failure raised by the probe propagates out of the loop. -/
def flvnLoopDefault (statSync : StatFn) : Nat → Path → Except FsError (Option Path)
  | 0, _ => .ok none
  | fuel + 1, np =>
    match np.existsProbe statSync with
    | .error e => .error e
    | .ok b => if !b then flvnLoopDefault statSync fuel np.del else .ok (some np)

/-- The findLastValidNode loop in the ignoreFiles branch: while the
copy neither exists nor is a file, drop its last element.  The source
condition !np.exists and !np.isFile short-circuits, so isFile is only
queried when exists came back false. -/
def flvnLoopIgnoreFiles (statSync : StatFn) : Nat → Path → Except FsError (Option Path)
  | 0, _ => .ok none
  | fuel + 1, np =>
    match np.existsProbe statSync with
    | .error e => .error e
    | .ok b =>
      if !b then
        match np.isFile statSync with
        | .error e => .error e
        | .ok f => if !f then flvnLoopIgnoreFiles statSync fuel np.del else .ok (some np)
      else .ok (some np)

/-- Path.findLastValidNode: rebuild a working copy from the serialized
text (the inner constructor call resolves the OS separator set, passed
here as osSeps), then run the loop selected by ignoreFiles. -/
def Path.findLastValidNode (p : Path) (statSync : StatFn) (osSeps : List Char)
    (fuel : Nat) (ignoreFiles : Bool) : Except FsError (Option Path) :=
  let np := Path.construct (some (p.toString [] [] none)) osSeps
  if ignoreFiles then flvnLoopIgnoreFiles statSync fuel np
  else flvnLoopDefault statSync fuel np

/-- The separator constants of the source module, as character sets. -/
def UNIX_SEPS : List Char := ['/']

/-- Deprecated alias of UNIX_SEPS kept by the source. -/
def LINUX_SEPS : List Char := UNIX_SEPS

/-- Windows separator set: backslash preferred, forward slash accepted. -/
def WINDOWS_SEPS : List Char := ['\\', '/']

/-- Claim-side condition: the first character, if any, is not a
separator. -/
def noLeadingSep (separators : List Char) : List Char → Bool
  | [] => true
  | c :: _ => !(decide (c ∈ separators))

/-- Claim-side condition: the last character, if any, is not a
separator. -/
def noTrailingSep (separators : List Char) (t : List Char) : Bool :=
  match t.getLast? with
  | none => true
  | some c => !(decide (c ∈ separators))

/-- Claim-side condition: no two adjacent characters are both
separators. -/
def noSepRun (separators : List Char) : List Char → Bool
  | [] => true
  | [_] => true
  | a :: b :: rest =>
    !(decide (a ∈ separators) && decide (b ∈ separators)) && noSepRun separators (b :: rest)

/-- Amendment-side condition: every separator character occurring in
the text is the preferred (index-0) separator. -/
def onlyPreferredSep (separators : List Char) (t : List Char) : Bool :=
  t.all (fun c => !(decide (c ∈ separators)) || decide (separators.head? = some c))

theorem jsIndexOf_cases {α : Type} [DecidableEq α] (l : List α) (e : α) :
    jsIndexOf l e = -1 ∨ 0 ≤ jsIndexOf l e := by
  cases l with
  | nil => left; rfl
  | cons x xs =>
    rw [jsIndexOf]
    split_ifs <;> omega

theorem jsIndexOf_eq_neg_one_iff {α : Type} [DecidableEq α] (l : List α) (e : α) :
    jsIndexOf l e = -1 ↔ e ∉ l := by
  induction l with
  | nil => simp [jsIndexOf]
  | cons x xs ih =>
    rw [jsIndexOf]
    by_cases hx : x = e
    · subst hx
      simp
    · rw [if_neg hx]
      rcases jsIndexOf_cases xs e with h | h
      · rw [if_neg (by omega)]
        simp [ih.mp h, Ne.symm hx]
      · rw [if_pos h]
        have h1 : jsIndexOf xs e + 1 ≠ -1 := by omega
        have h2 : e ∈ xs := by
          by_contra hmem
          rw [← ih] at hmem
          omega
        simp [h1, h2]

theorem explodeGo_cons_not_mem (separators acc : List Char) (c : Char)
    (rest : List Char) (hc : c ∉ separators) :
    explodeGo separators acc (c :: rest) = explodeGo separators (acc ++ [c]) rest := by
  rw [explodeGo, if_pos ((jsIndexOf_eq_neg_one_iff separators c).mpr hc)]

theorem explodeGo_cons_mem (separators acc : List Char) (c : Char)
    (rest : List Char) (hc : c ∈ separators) :
    explodeGo separators acc (c :: rest) =
      if acc = [] then explodeGo separators [] rest
      else acc :: explodeGo separators [] rest := by
  rw [explodeGo, if_neg (fun h => (jsIndexOf_eq_neg_one_iff separators c).mp h hc)]

theorem explodeGo_ne_nil (separators t : List Char) :
    ∀ acc : List Char, explodeGo separators acc t ≠ [] := by
  induction t with
  | nil => intro acc; simp [explodeGo]
  | cons c rest ih =>
    intro acc
    by_cases hc : c ∈ separators
    · rw [explodeGo_cons_mem separators acc c rest hc]
      by_cases ha : acc = []
      · rw [if_pos ha]; exact ih []
      · rw [if_neg ha]; simp
    · rw [explodeGo_cons_not_mem separators acc c rest hc]
      exact ih (acc ++ [c])

theorem joinList_cons_of_ne_nil (sep a : List Char) (L : List (List Char))
    (h : L ≠ []) : joinList sep (a :: L) = a ++ sep ++ joinList sep L := by
  cases L with
  | nil => exact absurd rfl h
  | cons b bs => rfl

theorem getLast?_cons_of_ne_nil {α : Type} (a : α) (l : List α) (h : l ≠ []) :
    (a :: l).getLast? = l.getLast? := by
  cases l with
  | nil => exact absurd rfl h
  | cons b bs => exact List.getLast?_cons_cons

theorem jsLastIndexOf_of_not_mem {α : Type} [DecidableEq α] (l : List α) (e : α)
    (h : e ∉ l) : jsLastIndexOf l e = -1 := by
  induction l with
  | nil => rfl
  | cons x xs ih =>
    have h1 : e ∉ xs := fun hm => h (List.mem_cons_of_mem x hm)
    have h2 : ¬ x = e := fun hh => h (by rw [hh]; exact List.mem_cons_self e xs)
    rw [jsLastIndexOf, ih h1, if_neg (by omega), if_neg h2]

theorem jsLastIndexOf_append_cons {α : Type} [DecidableEq α] (a b : List α) (e : α)
    (h : e ∉ b) : jsLastIndexOf (a ++ e :: b) e = (a.length : Int) := by
  induction a with
  | nil =>
    simp only [List.nil_append]
    rw [jsLastIndexOf, jsLastIndexOf_of_not_mem b e h, if_neg (by omega), if_pos rfl]
    rfl
  | cons x a' ih =>
    simp only [List.cons_append]
    rw [jsLastIndexOf, ih, if_pos (by omega)]
    simp only [List.length_cons]
    omega

/-- Claim C2: the leading-root flag is true exactly when the construction
text's first character is the forward slash, constructing without text
leaves it false, and a set flag makes toString prepend exactly one
forward slash in front of what an otherwise identical instance with the
flag clear would render, for every wrapping text and separator
override. -/
theorem c2_leading_root_flag (t separators pre suf : List Char)
    (separator : Option (List Char)) :
    ((Path.construct (some t) separators).trailingSlash = true ↔ t.head? = some '/')
  ∧ ((Path.construct none separators).trailingSlash = false)
  ∧ (∀ p : Path, p.trailingSlash = true →
      p.toString pre suf separator =
        '/' :: Path.toString { p with trailingSlash := false } pre suf separator) := by
  refine ⟨?_, rfl, ?_⟩
  · cases t with
    | nil => simp [Path.construct]
    | cons c ts => simp [Path.construct]
  · intro p hp
    simp [Path.toString, hp]

/-- Claim C5: diff x y keeps exactly the elements of x, in order and with
multiplicity, whose value does not occur anywhere among y's elements,
and an empty y leaves x's elements unchanged. -/
theorem c5_diff_membership (x y : Path) :
    Path.diff x y = x.pathElements.filter (fun e => decide (e ∉ y.pathElements))
  ∧ (y.pathElements = [] → Path.diff x y = x.pathElements) := by
  have hfun : (fun (e : List Char) => decide (jsIndexOf y.pathElements e = -1))
      = fun e => decide (e ∉ y.pathElements) := by
    funext e
    exact decide_eq_decide.mpr (jsIndexOf_eq_neg_one_iff y.pathElements e)
  constructor
  · rw [Path.diff, hfun]
  · intro hy
    rw [Path.diff, hy]
    simp [jsIndexOf]

/-- Claim C7: each of the four probes re-raises a permission-denied stat
failure unchanged, maps every other stat failure to a false result, and
on a successful stat exists is true while the other three report the
corresponding entry kind. -/
theorem c7_probe_failure_policy (p : Path) (statSync : StatFn) :
    (∀ e : FsError, statSync (p.toString [] [] none) = .error e →
        isPermissionDenied e = true →
        p.existsProbe statSync = .error e ∧ p.isFile statSync = .error e ∧
        p.isDir statSync = .error e ∧ p.isSymlink statSync = .error e)
  ∧ (∀ e : FsError, statSync (p.toString [] [] none) = .error e →
        isPermissionDenied e = false →
        p.existsProbe statSync = .ok false ∧ p.isFile statSync = .ok false ∧
        p.isDir statSync = .ok false ∧ p.isSymlink statSync = .ok false)
  ∧ (∀ r : StatInfo, statSync (p.toString [] [] none) = .ok r →
        p.existsProbe statSync = .ok true ∧ p.isFile statSync = .ok r.isFile ∧
        p.isDir statSync = .ok r.isDirectory ∧ p.isSymlink statSync = .ok r.isSymlink) := by
  refine ⟨fun e he hpd => ?_, fun e he hpd => ?_, fun r hr => ?_⟩ <;>
    simp [Path.existsProbe, Path.isFile, Path.isDir, Path.isSymlink, *]

/-- Witness for C7 at a concrete path and a stat oracle that always
raises permission-denied: the probe re-raises it. -/
theorem c7_probe_failure_policy_witness :
    Path.existsProbe ⟨[], UNIX_SEPS, false⟩ (fun _ => .error .permissionDenied)
      = .error .permissionDenied :=
  ((c7_probe_failure_policy ⟨[], UNIX_SEPS, false⟩
      (fun _ => .error .permissionDenied)).1 .permissionDenied rfl rfl).1

theorem flvnLoop_ignore_eq_default (statSync : StatFn) (fuel : Nat) :
    ∀ np : Path, flvnLoopIgnoreFiles statSync fuel np = flvnLoopDefault statSync fuel np := by
  induction fuel with
  | zero => intro np; rfl
  | succ n ih =>
    intro np
    rw [flvnLoopIgnoreFiles, flvnLoopDefault]
    cases hstat : statSync (np.toString [] [] none) with
    | ok r => simp [Path.existsProbe, hstat]
    | error e =>
      cases e with
      | permissionDenied => simp [Path.existsProbe, hstat, isPermissionDenied]
      | notFound => simp [Path.existsProbe, Path.isFile, hstat, isPermissionDenied, ih]
      | otherFailure => simp [Path.existsProbe, Path.isFile, hstat, isPermissionDenied, ih]

/-- Claim C6: findLastValidNode with ignoreFiles set returns the same
result as with the default condition, for every stat oracle, OS
separator set, fuel bound and starting path: the stopping condition
exists-or-is-a-file is equivalent to plain exists, so the parameter has
no observable effect. -/
theorem c6_ignoreFiles_no_effect (p : Path) (statSync : StatFn) (osSeps : List Char)
    (fuel : Nat) :
    p.findLastValidNode statSync osSeps fuel true
      = p.findLastValidNode statSync osSeps fuel false := by
  simp [Path.findLastValidNode, flvnLoop_ignore_eq_default]

/-- Claim C8: push explodes the fragment with the instance's current
separator set, appends the resulting sub-fragments in order, and leaves
the separator set and the leading-root flag unchanged. -/
theorem c8_push_frame (p : Path) (e : List Char) :
    (p.push e).pathElements = p.pathElements ++ explodePath p.separators e
  ∧ (p.push e).separators = p.separators
  ∧ (p.push e).trailingSlash = p.trailingSlash :=
  ⟨rfl, rfl, rfl⟩

/-- Claim C9: constructing from the empty string behaves exactly like
constructing with no text: empty elements and a clear flag, even though
the explosion algorithm applied to the empty string would produce a
single empty fragment; the falsy-text branch never runs it. -/
theorem c9_empty_text (separators : List Char) :
    Path.construct (some []) separators = Path.construct none separators
  ∧ (Path.construct (some []) separators).pathElements = []
  ∧ (Path.construct (some []) separators).trailingSlash = false
  ∧ explodePath separators [] = [[]] := by
  refine ⟨?_, ?_, ?_, rfl⟩ <;> simp [Path.construct]

/-- Claim C10: the ext getter faults (reads the missing last entry and
then operates on it) exactly when the element list is empty, so a
non-empty element list is a necessary precondition for ext to produce
any result; a Path constructed with no text is a concrete instance. -/
theorem c10_ext_needs_nonempty (separators : List Char) (p : Path) :
    (p.ext = none ↔ p.pathElements = [])
  ∧ (Path.construct none separators).ext = none := by
  constructor
  · constructor
    · intro hnone
      by_contra hne
      cases hl : p.pathElements.getLast? with
      | none => exact hne (List.getLast?_eq_none_iff.mp hl)
      | some lastElem =>
        simp only [Path.ext, hl] at hnone
        split at hnone <;> simp at hnone
    · intro hnil
      simp [Path.ext, hnil]
  · rfl

theorem explodeGo_append_sep_getLast (separators : List Char) (c : Char)
    (hc : c ∈ separators) :
    ∀ t acc : List Char, (explodeGo separators acc (t ++ [c])).getLast? = some [] := by
  intro t
  induction t with
  | nil =>
    intro acc
    simp only [List.nil_append]
    rw [explodeGo_cons_mem separators acc c [] hc]
    by_cases ha : acc = []
    · rw [if_pos ha]; rfl
    · rw [if_neg ha]; rfl
  | cons d t' ih =>
    intro acc
    simp only [List.cons_append]
    by_cases hd : d ∈ separators
    · rw [explodeGo_cons_mem separators acc d (t' ++ [c]) hd]
      by_cases ha : acc = []
      · rw [if_pos ha]; exact ih []
      · rw [if_neg ha,
          getLast?_cons_of_ne_nil _ _ (explodeGo_ne_nil separators (t' ++ [c]) [])]
        exact ih []
    · rw [explodeGo_cons_not_mem separators acc d (t' ++ [c]) hd]
      exact ih (acc ++ [d])

/-- Claim C3: the explosion algorithm unconditionally emits its trailing
accumulator, so any text ending in a separator yields a trailing empty
fragment; a separator met while the accumulator is empty (position 0,
or right after another separator) emits nothing; and exploding
/etc/test/ with the Unix separator set yields exactly the fragments
etc, test and the empty string. -/
theorem c3_trailing_empty_fragment :
    (∀ (separators t : List Char) (c : Char), c ∈ separators →
        (explodePath separators (t ++ [c])).getLast? = some [])
  ∧ (∀ (separators : List Char) (c : Char) (rest : List Char), c ∈ separators →
        explodeGo separators [] (c :: rest) = explodeGo separators [] rest)
  ∧ explodePath UNIX_SEPS ("/etc/test/".toList) = [("etc".toList), ("test".toList), []] := by
  refine ⟨?_, ?_, by decide⟩
  · intro separators t c hc
    exact explodeGo_append_sep_getLast separators c hc t []
  · intro separators c rest hc
    rw [explodeGo_cons_mem separators [] c rest hc, if_pos rfl]

/-- Witness for C3: a text ending in the Unix separator explodes to a
fragment list whose last entry is the empty fragment. -/
theorem c3_trailing_empty_fragment_witness :
    (explodePath UNIX_SEPS (("a".toList) ++ ['/'])).getLast? = some [] :=
  c3_trailing_empty_fragment.1 UNIX_SEPS ("a".toList) '/' (by decide)

/-- Witness for C2: constructing from /etc/passwd with the Windows
separator set sets the flag, and serialization prepends one forward
slash in front of what the same instance with the flag clear renders. -/
theorem c2_leading_root_flag_witness :
    Path.toString (Path.construct (some ("/etc/passwd".toList)) WINDOWS_SEPS) [] [] none =
      '/' :: Path.toString
        { Path.construct (some ("/etc/passwd".toList)) WINDOWS_SEPS with
            trailingSlash := false } [] [] none :=
  (c2_leading_root_flag ("/etc/passwd".toList) WINDOWS_SEPS [] [] none).2.2 _ (by decide)

/-- Witness for C5: diffing against a Path with no elements returns the
left operand's elements exactly. -/
theorem c5_diff_membership_witness :
    Path.diff ⟨[("a".toList), ("b".toList), ("c".toList)], UNIX_SEPS, false⟩
        ⟨[], UNIX_SEPS, false⟩
      = [("a".toList), ("b".toList), ("c".toList)] :=
  (c5_diff_membership ⟨[("a".toList), ("b".toList), ("c".toList)], UNIX_SEPS, false⟩
      ⟨[], UNIX_SEPS, false⟩).2 rfl

/-- Claim C4: with a non-empty element list, ext is the JavaScript null
when the last element has no dot or its last dot sits at position 0,
and otherwise is the suffix of the last element starting at its last
dot, dot included. -/
theorem c4_ext_last_dot (p : Path) (lastElem : List Char)
    (h : p.pathElements.getLast? = some lastElem) :
    (('.' ∉ lastElem) → p.ext = some none)
  ∧ (∀ b : List Char, lastElem = '.' :: b → '.' ∉ b → p.ext = some none)
  ∧ (∀ a b : List Char, lastElem = a ++ '.' :: b → '.' ∉ b → a ≠ [] →
      p.ext = some (some ('.' :: b))) := by
  refine ⟨?_, ?_, ?_⟩
  · intro hdot
    simp only [Path.ext, h]
    rw [jsLastIndexOf_of_not_mem lastElem '.' hdot]
    simp
  · intro b hb hdot
    simp only [Path.ext, h, hb]
    have h0 : jsLastIndexOf ('.' :: b) '.' = ((0 : Nat) : Int) :=
      jsLastIndexOf_append_cons [] b '.' hdot
    rw [h0]
    simp
  · intro a b hab hdot ha
    simp only [Path.ext, h, hab]
    rw [jsLastIndexOf_append_cons a b '.' hdot]
    have hlen : 0 < a.length := List.length_pos.mpr ha
    rw [if_pos ⟨by omega, by omega⟩]
    have htn : ((a.length : Int)).toNat = a.length := by omega
    rw [htn, List.drop_left]

/-- Witness for C4: a last element archive.tar.gz yields the extension
dot-gz, the last dot winning. -/
theorem c4_ext_last_dot_witness :
    Path.ext ⟨[("archive.tar.gz".toList)], UNIX_SEPS, false⟩
      = some (some ('.' :: ("gz".toList))) :=
  (c4_ext_last_dot ⟨[("archive.tar.gz".toList)], UNIX_SEPS, false⟩
      ("archive.tar.gz".toList) rfl).2.2
    ("archive.tar".toList) ("gz".toList) (by decide) (by decide) (by decide)

theorem explodeGo_join_of_wf (separators : List Char) (s : Char) :
    ∀ t acc : List Char,
      (∀ c ∈ t, c ∈ separators → c = s) →
      (∀ c : Char, t.getLast? = some c → c ∉ separators) →
      noSepRun separators t = true →
      (∀ c : Char, t.head? = some c → c ∈ separators → acc ≠ []) →
      joinList [s] (explodeGo separators acc t) = acc ++ t := by
  intro t
  induction t with
  | nil =>
    intro acc _ _ _ _
    simp [explodeGo, joinList]
  | cons c rest ih =>
    intro acc honly htrail hrun hhead
    by_cases hc : c ∈ separators
    · have hcs : c = s := honly c (List.mem_cons_self c rest) hc
      have hacc : acc ≠ [] := hhead c rfl hc
      cases rest with
      | nil => exact absurd hc (htrail c rfl)
      | cons r rest' =>
        have hrun2 := hrun
        rw [noSepRun] at hrun2
        simp only [Bool.and_eq_true, Bool.not_eq_true', Bool.and_eq_false_iff,
          decide_eq_false_iff_not, decide_eq_true_eq] at hrun2
        have hr : r ∉ separators := by
          rcases hrun2.1 with hh | hh
          · exact absurd hc hh
          · exact hh
        have hrun' : noSepRun separators (r :: rest') = true := hrun2.2
        have honly' : ∀ x ∈ r :: rest', x ∈ separators → x = s :=
          fun x hx => honly x (List.mem_cons_of_mem c hx)
        have htrail' : ∀ x : Char, (r :: rest').getLast? = some x → x ∉ separators := by
          intro x hx
          exact htrail x (by rw [List.getLast?_cons_cons]; exact hx)
        have hhead' : ∀ x : Char, (r :: rest').head? = some x → x ∈ separators →
            ([] : List Char) ≠ [] := by
          intro x hx hxs
          simp only [List.head?_cons, Option.some.injEq] at hx
          subst hx
          exact absurd hxs hr
        rw [explodeGo_cons_mem separators acc c (r :: rest') hc, if_neg hacc,
          joinList_cons_of_ne_nil [s] acc _ (explodeGo_ne_nil separators (r :: rest') []),
          ih [] honly' htrail' hrun' hhead', hcs]
        simp
    · have honly' : ∀ x ∈ rest, x ∈ separators → x = s :=
        fun x hx => honly x (List.mem_cons_of_mem c hx)
      have htrail' : ∀ x : Char, rest.getLast? = some x → x ∉ separators := by
        intro x hx
        apply htrail x
        cases rest with
        | nil => simp at hx
        | cons r rest' => rw [List.getLast?_cons_cons]; exact hx
      have hrun' : noSepRun separators rest = true := by
        cases rest with
        | nil => rfl
        | cons r rest' =>
          rw [noSepRun, Bool.and_eq_true] at hrun
          exact hrun.2
      have hhead' : ∀ x : Char, rest.head? = some x → x ∈ separators →
          acc ++ [c] ≠ [] := by
        intro _ _ _
        simp
      rw [explodeGo_cons_not_mem separators acc c rest hc,
        ih (acc ++ [c]) honly' htrail' hrun' hhead']
      simp

/-- Claim C1 (amended): over any separator set whose preferred entry is
s, every text with no leading separator, no trailing separator, no run
of consecutive separators, and whose separator characters are all the
preferred one, is reproduced exactly by joining the fragments of
explodePath with the preferred separator. -/
theorem c1_explode_join_roundtrip (separators t : List Char) (s : Char)
    (hs : separators.head? = some s)
    (h1 : onlyPreferredSep separators t = true)
    (h2 : noLeadingSep separators t = true)
    (h3 : noTrailingSep separators t = true)
    (h4 : noSepRun separators t = true) :
    joinList [s] (explodePath separators t) = t := by
  have honly : ∀ c ∈ t, c ∈ separators → c = s := by
    intro c hct hcs
    have hall := List.all_eq_true.mp h1 c hct
    simp only [Bool.or_eq_true, Bool.not_eq_true', decide_eq_false_iff_not,
      decide_eq_true_eq] at hall
    rcases hall with hnot | hhd
    · exact absurd hcs hnot
    · rw [hs] at hhd
      injection hhd with hh
      exact hh.symm
  have htrail : ∀ c : Char, t.getLast? = some c → c ∉ separators := by
    intro c hcl
    simp only [noTrailingSep] at h3
    rw [hcl] at h3
    simpa using h3
  have hhead : ∀ c : Char, t.head? = some c → c ∈ separators →
      ([] : List Char) ≠ [] := by
    intro c hch hcs
    cases t with
    | nil => simp at hch
    | cons d ts =>
      simp only [List.head?_cons, Option.some.injEq] at hch
      subst hch
      simp only [noLeadingSep, Bool.not_eq_true', decide_eq_false_iff_not] at h2
      exact absurd hcs h2
  exact explodeGo_join_of_wf separators s t [] honly htrail h4 hhead

/-- Witness for the amended C1 at a concrete Unix-style input. -/
theorem c1_explode_join_roundtrip_witness :
    joinList ['/'] (explodePath UNIX_SEPS ("etc/test/x.cfg".toList))
      = ("etc/test/x.cfg".toList) :=
  c1_explode_join_roundtrip UNIX_SEPS ("etc/test/x.cfg".toList) '/' rfl
    (by decide) (by decide) (by decide) (by decide)

/-- Counterexample to C1 as stated: over the Windows separator set the
text a-slash-b satisfies every condition the claim names (no leading
separator, no trailing separator, no run of consecutive separators, all
separator characters recognized by the instance), yet joining the
exploded fragments with the preferred (index-0) separator, the
backslash, does not reproduce the original text. -/
theorem c1_exact_roundtrip_cex :
    noLeadingSep WINDOWS_SEPS ("a/b".toList) = true
  ∧ noTrailingSep WINDOWS_SEPS ("a/b".toList) = true
  ∧ noSepRun WINDOWS_SEPS ("a/b".toList) = true
  ∧ WINDOWS_SEPS.head? = some '\\'
  ∧ joinList ['\\'] (explodePath WINDOWS_SEPS ("a/b".toList)) ≠ ("a/b".toList) :=
  ⟨by decide, by decide, by decide, rfl, by decide⟩

end PathRedux

